import Mathlib

/-!
Verification development for the stackclass/tester repository.

The Rust source under `src/` is shallowly embedded below:

* `StepBeh`, `runFrom`, `Runner.run` embed `Runner::run` (src/runner.rs):
  each step's verification function is represented by its observable
  behaviour under the step's timeout (`rx.recv_timeout`): it either
  finishes with a `Result<(), CaseError>` within the timeout, or it
  overruns the timeout (the `Err(_)` arm of `recv_timeout`).  The run
  produces the boolean verdict together with the ordered trace of
  observable events (verification-function invocation, stage outcome,
  teardown execution).
* `run_teardown_funcs` embeds `Harness::run_teardown_funcs`
  (src/harness.rs): the registered teardown actions are a `Vec` (list in
  registration order); the loop pops from the end until empty.  The
  embedding returns the invocation order together with the final stack.
* `Executable` and its operations embed src/executable.rs; OS processes
  live in an explicit `World` (the list of spawned children plus the
  current time in milliseconds), and `Option<Arc<Mutex<Child>>>` is
  embedded as `Option Nat`: an optional index into the world's child
  list, so two handles holding the same index share the same child.
* `Definition`, `Context`, `Case` and `Tester.validate` embed
  src/definition.rs, src/context.rs, src/case.rs and src/tester.rs.
-/

set_option autoImplicit false

instance {ε α : Type} [DecidableEq ε] [DecidableEq α] : DecidableEq (Except ε α) := fun a b =>
  match a, b with
  | .ok x, .ok y =>
    if h : x = y then isTrue (by rw [h]) else isFalse (by intro hc; cases hc; exact h rfl)
  | .error x, .error y =>
    if h : x = y then isTrue (by rw [h]) else isFalse (by intro hc; cases hc; exact h rfl)
  | .ok _, .error _ => isFalse (by intro hc; cases hc)
  | .error _, .ok _ => isFalse (by intro hc; cases hc)

/-- Result of a stage's verification function as delivered over the
runner's channel (`Result<(), CaseError>` with the error rendered as a
string). -/
inductive StepBeh where
  /-- `rx.recv_timeout` returns `Ok(result)` within the timeout. -/
  | finishes (r : Except String Unit)
  /-- no result is delivered before the step's timeout elapses
  (the `Err(_)` arm of `recv_timeout`). -/
  | overruns
deriving DecidableEq, Repr

/-- Per-stage outcome as recorded by the runner. -/
inductive StepResult where
  | passed
  | failed (err : String)
  | timedOut
deriving DecidableEq, Repr

/-- Observable events of one `Runner::run` call, in order:
`invoked i` = the runner spawned the thread running stage `i`'s
verification function; `outcome i r` = the runner decided stage `i`'s
result; `teardown i` = the runner called `run_teardown_funcs` on stage
`i`'s harness. -/
inductive Event where
  | invoked (i : Nat)
  | outcome (i : Nat) (r : StepResult)
  | teardown (i : Nat)
deriving DecidableEq, Repr

/-- The stage result the runner's `match rx.recv_timeout(timeout)`
arrives at (including the timeout message case). -/
def stepResult : StepBeh → StepResult
  | .finishes (.ok _) => .passed
  | .finishes (.error e) => .failed e
  | .overruns => .timedOut

/-- Whether a step behaviour counts as passed (the `result` boolean
computed in `Runner::run`). -/
def stepPassed : StepBeh → Bool
  | .finishes (.ok _) => true
  | .finishes (.error _) => false
  | .overruns => false

/-- Embedding of the loop body of `Runner::run` (src/runner.rs:49-94),
carrying the index of the current step.  For each step: invoke the
verification function (spawned thread + `recv_timeout`), record the
outcome, always run the harness teardown, and abort returning `false`
if the step did not pass. -/
def runFrom (i : Nat) : List StepBeh → Bool × List Event
  | [] => (true, [])
  | b :: rest =>
    let result : Bool :=
      match b with
      | .finishes (.ok _) => true
      | .finishes (.error _) => false
      | .overruns => false
    let stageEvents :=
      [Event.invoked i, Event.outcome i (stepResult b), Event.teardown i]
    if result then
      ((runFrom (i + 1) rest).1, stageEvents ++ (runFrom (i + 1) rest).2)
    else
      (false, stageEvents)

/-- Embedding of `Runner::run`: run all steps starting from index 0,
returning the overall verdict and the event trace. -/
def Runner.run (steps : List StepBeh) : Bool × List Event :=
  runFrom 0 steps

/-- The trace `runFrom` produces, written structurally: one block of
three events per executed stage, stopping after the first non-passing
stage. -/
def stageTrace (i : Nat) : List StepBeh → List Event
  | [] => []
  | b :: rest =>
    Event.invoked i :: Event.outcome i (stepResult b) :: Event.teardown i ::
      (if stepResult b = StepResult.passed then stageTrace (i + 1) rest else [])

/-- Indices of `invoked` events in a trace, in order. -/
def invokedIndices (tr : List Event) : List Nat :=
  tr.filterMap fun e =>
    match e with
    | .invoked i => some i
    | _ => none

/-- Number of occurrences of an event in a trace. -/
def countEvent (ev : Event) (tr : List Event) : Nat :=
  (tr.filter fun e => e = ev).length

/-- Embedding of `Harness::run_teardown_funcs` (src/harness.rs:49-54):
the registered actions are a `Vec` in registration order; the loop pops
the most recently registered action and invokes it until the vector is
empty.  Returns the invocation order paired with the final stack. -/
def run_teardown_funcs {α : Type} (fs : List α) : List α × List α :=
  match h : fs.getLast? with
  | none => ([], [])
  | some f =>
    let rest := run_teardown_funcs fs.dropLast
    (f :: rest.1, rest.2)
termination_by fs.length
decreasing_by
  have hne : fs ≠ [] := by
    intro he
    subst he
    simp at h
  simp only [List.length_dropLast]
  have hlen : fs.length ≠ 0 := fun hl => hne (List.eq_nil_of_length_eq_zero hl)
  omega

/-- Embedding of `TesterError` (src/error.rs), restricted to the
variants the process-lifecycle code can produce.  Error message strings
coming from the OS (spawn errors, kill errors) are abstracted by the
payload string. -/
inductive TErr where
  | processAlreadyRunning
  | noProcessRunning
  | stdinCaptureFailed
  | processExecution (msg : String)
  | processKillFailed (msg : String)
  | waitTimeout (ms : Nat)
  | custom (msg : String)
deriving DecidableEq, Repr

/-- One spawned OS child process (`std::process::Child`).  Its
behaviour is part of the model's input: `exitTime` is the absolute time
(ms) at which it exits on its own (`none` = never), `exitCode` its exit
status, `killFails` whether the OS rejects the kill signal.  `killed`
and `stdinWritten` record mutations performed through the handle. -/
structure Child where
  exitTime : Option Nat
  exitCode : Nat
  killFails : Bool
  killed : Bool
  stdinOpen : Bool
  stdinWritten : List Nat
deriving DecidableEq, Repr, Inhabited

/-- The OS world: all spawned children (a handle `Arc<Mutex<Child>>` is
embedded as an index into this list, so two handles with the same index
share the same child) and the current time in milliseconds. -/
structure World where
  children : List Child
  now : Nat
deriving DecidableEq, Repr

def getChild (w : World) (pid : Nat) : Child :=
  w.children.getD pid default

def setChild (w : World) (pid : Nat) (c : Child) : World :=
  { w with children := w.children.set pid c }

/-- What `Child::try_wait` reports at absolute time `t`: `some status`
once the process has been killed or has exited on its own, `none` while
it is still running.  (The `Err` case of `try_wait` — an OS error while
probing — is not modelled; the code maps it to "not running".) -/
def childStatus (c : Child) (t : Nat) : Option Nat :=
  if c.killed then some c.exitCode
  else
    match c.exitTime with
    | some e => if e ≤ t then some c.exitCode else none
    | none => none

/-- Embedding of `Executable` (src/executable.rs:31-52).  `process` is
the optional shared handle (`Option<Arc<Mutex<Child>>>`), embedded as
an optional index into the world's child list.  `rx` is the capture
channel receiver: the queue of `(buffer, is_stdout)` messages that
`try_iter` would yield. -/
structure Executable where
  path : String
  timeout : Nat
  workingDir : Option String
  process : Option Nat
  stdout : Option (List Nat)
  stderr : Option (List Nat)
  rx : Option (List (List Nat × Bool))
deriving DecidableEq, Repr

/-- Embedding of `Executable::new` (src/executable.rs:80-103) in the
successful case (the path exists and is executable — filesystem checks
are outside the model): a fresh, never-started executable with the
default 10 s timeout. -/
def Executable.new (path : String) : Executable :=
  { path := path, timeout := 10000, workingDir := none, process := none,
    stdout := none, stderr := none, rx := none }

/-- Embedding of `impl Clone for Executable` (src/executable.rs:55-67):
every field is cloned — the `process` handle is a shared reference, so
the clone holds the same child index — except `rx`, which is `None` in
the clone. -/
def Executable.clone (e : Executable) : Executable :=
  { path := e.path, timeout := e.timeout, workingDir := e.workingDir,
    process := e.process, stdout := e.stdout, stderr := e.stderr, rx := none }

/-- Embedding of `Executable::is_running` (src/executable.rs:118-129):
`true` iff a handle is held and `try_wait` reports the process as not
yet exited. -/
def Executable.is_running (w : World) (e : Executable) : Bool :=
  match e.process with
  | some pid => (childStatus (getChild w pid) w.now).isNone
  | none => false

/-- Behavioural input for one `start` call: whether the OS spawn fails,
and the spawned child's behaviour together with the messages the two
capture threads will have delivered on the channel by the time it is
drained. -/
structure SpawnSpec where
  spawnFails : Bool
  exitTime : Option Nat
  exitCode : Nat
  killFails : Bool
  msgs : List (List Nat × Bool)
deriving DecidableEq, Repr

/-- Embedding of `Executable::start` (src/executable.rs:132-182):
rejected with `ProcessAlreadyRunning` while a live process is held;
otherwise spawn a new OS child, install the shared handle and the
capture-channel receiver. -/
def Executable.start (w : World) (e : Executable) (spec : SpawnSpec) :
    World × Executable × Except TErr Unit :=
  if Executable.is_running w e then (w, e, .error .processAlreadyRunning)
  else if spec.spawnFails then (w, e, .error (.processExecution "spawn failed"))
  else
    let child : Child :=
      { exitTime := spec.exitTime, exitCode := spec.exitCode,
        killFails := spec.killFails, killed := false,
        stdinOpen := true, stdinWritten := [] }
    let pid := w.children.length
    ({ w with children := w.children ++ [child] },
     { e with process := some pid, rx := some spec.msgs },
     .ok ())

/-- Embedding of `Executable::write_stdin` (src/executable.rs:185-194):
fails with `NoProcessRunning` when no live process, with
`StdinCaptureFailed` when the input stream is gone; otherwise appends
the input to the child's stdin. -/
def Executable.write_stdin (w : World) (e : Executable) (input : List Nat) :
    World × Executable × Except TErr Unit :=
  if !(Executable.is_running w e) then (w, e, .error .noProcessRunning)
  else
    match e.process with
    | none => (w, e, .error .noProcessRunning)
    | some pid =>
      let c := getChild w pid
      if c.stdinOpen then
        (setChild w pid { c with stdinWritten := c.stdinWritten ++ input }, e, .ok ())
      else (w, e, .error .stdinCaptureFailed)

/-- Embedding of `Executable::kill` (src/executable.rs:233-241): if a
handle is held, signal the child; a rejected signal surfaces as
`ProcessKillFailed` (leaving the handle in place, because of the early
`?` return); otherwise the handle is cleared and `Ok` returned. -/
def Executable.kill (w : World) (e : Executable) :
    World × Executable × Except TErr Unit :=
  match e.process with
  | none => (w, { e with process := none }, .ok ())
  | some pid =>
    let c := getChild w pid
    if c.killFails then (w, e, .error (.processKillFailed "kill failed"))
    else (setChild w pid { c with killed := true }, { e with process := none }, .ok ())

/-- Draining `rx.try_iter()` in `Executable::wait`: each queued message
overwrites the stdout or the stderr buffer according to its tag. -/
def drainMsgs (msgs : List (List Nat × Bool)) : List Nat × List Nat :=
  msgs.foldl (fun acc m => if m.2 then (m.1, acc.2) else (acc.1, m.1)) ([], [])

/-- Embedding of the poll loop of `Executable::wait`
(src/executable.rs:203-229).  `startT` is the time `wait` was entered,
`t` the elapsed milliseconds (the loop sleeps 100 ms per iteration).
Each iteration: probe `try_wait`; if exited, drain the capture channel
and return the buffers and status, dropping the handle; if the elapsed
time exceeds the executable's timeout, kill the process and fail with
`WaitTimeout`; otherwise sleep and poll again.  `fuel` bounds the
recursion; `Executable.wait` passes enough fuel that the `0` case is
never reached (the loop always terminates via exit or timeout). -/
def Executable.waitLoop (w : World) (e : Executable) (pid startT : Nat) :
    Nat → Nat → World × Executable × Except TErr (List Nat × List Nat × Nat)
  | _, 0 => (w, e, .error (.custom "out of fuel"))
  | t, fuel + 1 =>
    match childStatus (getChild w pid) (startT + t) with
    | some status =>
      let bufs :=
        match e.rx with
        | some msgs => drainMsgs msgs
        | none => ([], [])
      ({ w with now := startT + t }, { e with process := none },
       .ok (bufs.1, bufs.2, status))
    | none =>
      if e.timeout < t then
        match Executable.kill { w with now := startT + t } e with
        | (w', e', .error err) => (w', e', .error err)
        | (w', e', .ok _) => (w', e', .error (.waitTimeout e.timeout))
      else
        Executable.waitLoop w e pid startT (t + 100) fuel

/-- Embedding of `Executable::wait` (src/executable.rs:197-230): fails
with `NoProcessRunning` when no handle is held, otherwise enters the
poll loop.  The fuel `timeout / 100 + 2` covers every iteration the
loop can perform (polls at 0, 100, ..., up to the first instant past
the timeout). -/
def Executable.wait (w : World) (e : Executable) :
    World × Executable × Except TErr (List Nat × List Nat × Nat) :=
  match e.process with
  | none => (w, e, .error .noProcessRunning)
  | some pid => Executable.waitLoop w e pid w.now 0 (e.timeout / 100 + 2)

/-- Embedding of `Case` (src/case.rs:25-34): slug, verification
function (represented by its observable behaviour) and timeout in
milliseconds. -/
structure Case where
  slug : String
  function : StepBeh
  timeout : Nat
deriving DecidableEq, Repr

/-- Embedding of `Case::default_timeout` (src/case.rs:44-46): 10 s when
the configured timeout is zero. -/
def Case.default_timeout (c : Case) : Nat :=
  if c.timeout = 0 then 10000 else c.timeout

/-- Embedding of `Definition` (src/definition.rs:19-31). -/
structure Definition where
  executable_name : String
  legacy_executable_name : Option String
  cases : List Case
  anti_cheat_cases : List Case
deriving DecidableEq, Repr

/-- Embedding of `Definition::find_case` (src/definition.rs:35-37). -/
def Definition.find_case (d : Definition) (slug : String) : Option Case :=
  d.cases.find? fun c => c.slug == slug

/-- Embedding of `ContextCase` (src/context.rs:44-53).  The source's
third field (the per-stage log label) is called `logTag` here. -/
structure ContextCase where
  slug : String
  title : String
  logTag : String
deriving DecidableEq, Repr

/-- Embedding of `Context` (src/context.rs:22-40); the raw environment
map is outside the model. -/
structure Context where
  executable_path : String
  is_debug : Bool
  cases : List ContextCase
  timeout : Nat
  should_skip_anti_cheat : Bool
deriving DecidableEq, Repr

/-- Recursion over the requested cases in `Tester::validate`
(src/tester.rs:78-98): for each context case, look its slug up in the
definition; a missing slug (and, redundantly, a found case whose slug
differs) produces the formatted `Custom` error. -/
def validateCases (d : Definition) : List ContextCase → Except TErr Unit
  | [] => .ok ()
  | c :: rest =>
    match d.find_case c.slug with
    | none =>
      .error (.custom ("tester context does not have test case with slug " ++ c.slug))
    | some dc =>
      if dc.slug ≠ c.slug then
        .error (.custom ("tester context does not have test case with slug " ++ c.slug))
      else validateCases d rest

/-- Embedding of `Tester::validate` (src/tester.rs:78-98). -/
def Tester.validate (ctx : Context) (d : Definition) : Except TErr Unit :=
  validateCases d ctx.cases

/-! Concrete fixtures used by witness and counterexample theorems. -/

/-- A child that never exits on its own and accepts the kill signal. -/
def liveChild : Child :=
  { exitTime := none, exitCode := 0, killFails := false, killed := false,
    stdinOpen := true, stdinWritten := [] }

/-- A world holding exactly the one live child. -/
def liveWorld : World := { children := [liveChild], now := 0 }

/-- An executable holding the handle to child 0, with a 50 ms timeout. -/
def liveExec : Executable :=
  { path := "app", timeout := 50, workingDir := none, process := some 0,
    stdout := none, stderr := none, rx := none }

/-- A child that exited immediately with status 7. -/
def exitedChild : Child :=
  { exitTime := some 0, exitCode := 7, killFails := false, killed := false,
    stdinOpen := true, stdinWritten := [] }

/-- A world holding exactly the one already-exited child. -/
def exitedWorld : World := { children := [exitedChild], now := 0 }

/-- A spawn behaviour: the spawn succeeds and the child never exits. -/
def demoSpawn : SpawnSpec :=
  { spawnFails := false, exitTime := none, exitCode := 0, killFails := false,
    msgs := [] }

/-- An empty world (no process spawned yet). -/
def emptyWorld : World := { children := [], now := 0 }

/-- The run-level executable `Tester::run` creates: fresh, no handle. -/
def runLevelExec : Executable := Executable.new "app"

/-- A stage starting a process on its own clone of the run-level
executable, as stage code would via `Harness::new_executable`. -/
def stageStart : World × Executable × Except TErr Unit :=
  Executable.start emptyWorld (Executable.clone runLevelExec) demoSpawn

/-- The result of waiting on a clone of `liveExec` in `exitedWorld`. -/
def cloneWaitRes : World × Executable × Except TErr (List Nat × List Nat × Nat) :=
  Executable.wait exitedWorld (Executable.clone liveExec)

/-- A one-case catalog. -/
def demoDef : Definition :=
  { executable_name := "app", legacy_executable_name := none,
    cases := [{ slug := "a", function := .finishes (.ok ()), timeout := 0 }],
    anti_cheat_cases := [] }

/-- A context requesting the one catalog case. -/
def demoCtx : Context :=
  { executable_path := "p", is_debug := false,
    cases := [{ slug := "a", title := "Stage 1", logTag := "stage-1" }],
    timeout := 15000, should_skip_anti_cheat := false }

/-- A context requesting a slug absent from the catalog. -/
def badCtx : Context :=
  { executable_path := "p", is_debug := false,
    cases := [{ slug := "zz", title := "Stage 1", logTag := "stage-1" }],
    timeout := 15000, should_skip_anti_cheat := false }

/-! Lemmas about the runner trace. -/

theorem stepPassed_iff (b : StepBeh) :
    stepPassed b = true ↔ stepResult b = StepResult.passed := by
  cases b with
  | finishes r => cases r <;> simp [stepPassed, stepResult]
  | overruns => simp [stepPassed, stepResult]

theorem runFrom_trace (steps : List StepBeh) :
    ∀ i, (runFrom i steps).2 = stageTrace i steps := by
  induction steps with
  | nil => intro i; rfl
  | cons b rest ih =>
    intro i
    cases b with
    | finishes r =>
      cases r with
      | ok u => simp [runFrom, stageTrace, stepResult, ih]
      | error e => simp [runFrom, stageTrace, stepResult]
    | overruns => simp [runFrom, stageTrace, stepResult]

theorem runFrom_verdict (steps : List StepBeh) :
    ∀ i, (runFrom i steps).1 = steps.all stepPassed := by
  induction steps with
  | nil => intro i; rfl
  | cons b rest ih =>
    intro i
    cases b with
    | finishes r =>
      cases r with
      | ok u => simp [runFrom, stepPassed, ih]
      | error e => simp [runFrom, stepPassed]
    | overruns => simp [runFrom, stepPassed]

theorem stageTrace_invoked_ge (steps : List StepBeh) :
    ∀ i j, Event.invoked j ∈ stageTrace i steps → i ≤ j := by
  induction steps with
  | nil => intro i j h; simp [stageTrace] at h
  | cons b rest ih =>
    intro i j h
    simp only [stageTrace, List.mem_cons] at h
    rcases h with h | h | h | h
    · cases h; exact Nat.le_refl _
    · cases h
    · cases h
    · by_cases hp : stepResult b = StepResult.passed
      · rw [if_pos hp] at h
        exact Nat.le_of_succ_le (ih (i + 1) j h)
      · rw [if_neg hp] at h
        cases h

theorem stageTrace_teardown_ge (steps : List StepBeh) :
    ∀ i j, Event.teardown j ∈ stageTrace i steps → i ≤ j := by
  induction steps with
  | nil => intro i j h; simp [stageTrace] at h
  | cons b rest ih =>
    intro i j h
    simp only [stageTrace, List.mem_cons] at h
    rcases h with h | h | h | h
    · cases h
    · cases h
    · cases h; exact Nat.le_refl _
    · by_cases hp : stepResult b = StepResult.passed
      · rw [if_pos hp] at h
        exact Nat.le_of_succ_le (ih (i + 1) j h)
      · rw [if_neg hp] at h
        cases h

theorem countEvent_nil (ev : Event) : countEvent ev [] = 0 := rfl

theorem countEvent_cons (ev x : Event) (tr : List Event) :
    countEvent ev (x :: tr) = (if x = ev then 1 else 0) + countEvent ev tr := by
  by_cases h : x = ev <;> simp [countEvent, List.filter_cons, h, Nat.add_comm]

/-- Each started stage's teardown occurs exactly once in the trace. -/
theorem stageTrace_teardown_count (steps : List StepBeh) :
    ∀ i j, countEvent (Event.teardown j) (stageTrace i steps) =
      if Event.invoked j ∈ stageTrace i steps then 1 else 0 := by
  induction steps with
  | nil => intro i j; simp [stageTrace, countEvent]
  | cons b rest ih =>
    intro i j
    have htail :
        countEvent (Event.teardown j)
          (if stepResult b = StepResult.passed then stageTrace (i + 1) rest else []) =
        if Event.invoked j ∈
            (if stepResult b = StepResult.passed then stageTrace (i + 1) rest else [])
          then 1 else 0 := by
      by_cases hp : stepResult b = StepResult.passed
      · simp only [if_pos hp]; exact ih (i + 1) j
      · simp [hp, countEvent]
    by_cases hij : j = i
    · subst hij
      have hnot : Event.invoked j ∉
          (if stepResult b = StepResult.passed then stageTrace (j + 1) rest else []) := by
        by_cases hp : stepResult b = StepResult.passed
        · simp only [if_pos hp]
          intro hmem
          exact Nat.not_succ_le_self j (stageTrace_invoked_ge rest (j + 1) j hmem)
        · simp [hp]
      have h0 : countEvent (Event.teardown j)
          (if stepResult b = StepResult.passed then stageTrace (j + 1) rest else []) = 0 := by
        rw [htail, if_neg hnot]
      rw [stageTrace, countEvent_cons, countEvent_cons, countEvent_cons, h0]
      simp [List.mem_cons]
    · have hij' : i ≠ j := fun h => hij h.symm
      rw [stageTrace, countEvent_cons, countEvent_cons, countEvent_cons, htail]
      simp [List.mem_cons, hij, hij']

/-- Structure of the trace around any started stage `j`: the three
events of stage `j` are contiguous (`invoked`, then `outcome`, then
`teardown`), and no later stage is invoked before that block. -/
theorem stageTrace_block (steps : List StepBeh) :
    ∀ i j, Event.invoked j ∈ stageTrace i steps →
      ∃ l r res,
        stageTrace i steps =
          l ++ Event.invoked j :: Event.outcome j res :: Event.teardown j :: r ∧
        ∀ k, j < k → Event.invoked k ∉ l := by
  induction steps with
  | nil => intro i j h; simp [stageTrace] at h
  | cons b rest ih =>
    intro i j h
    by_cases hij : j = i
    · subst hij
      refine ⟨[], (if stepResult b = StepResult.passed then stageTrace (j + 1) rest else []),
        stepResult b, ?_, ?_⟩
      · simp [stageTrace]
      · intro k _ hk
        simp at hk
    · have hmem : Event.invoked j ∈ stageTrace (i + 1) rest := by
        simp only [stageTrace, List.mem_cons] at h
        rcases h with h | h | h | h
        · cases h; exact absurd rfl hij
        · cases h
        · cases h
        · by_cases hp : stepResult b = StepResult.passed
          · rwa [if_pos hp] at h
          · rw [if_neg hp] at h; cases h
      have hp : stepResult b = StepResult.passed := by
        by_contra hp
        simp only [stageTrace, List.mem_cons, if_neg hp] at h
        rcases h with h | h | h | h
        · cases h; exact absurd rfl hij
        · cases h
        · cases h
        · cases h
      obtain ⟨l, r, res, heq, hnol⟩ := ih (i + 1) j hmem
      have hji : i < j :=
        Nat.lt_of_succ_le (stageTrace_invoked_ge rest (i + 1) j hmem)
      refine ⟨Event.invoked i :: Event.outcome i (stepResult b) :: Event.teardown i :: l,
        r, res, ?_, ?_⟩
      · simp [stageTrace, if_pos hp, heq]
      · intro k hk hmemk
        simp only [List.mem_cons] at hmemk
        rcases hmemk with hmemk | hmemk | hmemk | hmemk
        · cases hmemk; omega
        · cases hmemk
        · cases hmemk
        · exact hnol k hk hmemk

theorem run_teardown_funcs_eq {α : Type} (fs : List α) :
    run_teardown_funcs fs = (fs.reverse, []) := by
  induction fs using List.reverseRecOn with
  | nil => rw [run_teardown_funcs]; simp
  | append_singleton ys y ih =>
    rw [run_teardown_funcs]
    split
    · next h => simp [List.getLast?_concat] at h
    · next f h =>
      rw [List.getLast?_concat] at h
      injection h with h'
      subst h'
      simp [List.dropLast_concat, ih]

/-- When every step passes, the invoked indices of the trace are
exactly `i, i+1, ..., i + steps.length - 1`. -/
theorem stageTrace_invokedIndices_all_pass (steps : List StepBeh)
    (hall : ∀ b ∈ steps, stepResult b = StepResult.passed) :
    ∀ i, invokedIndices (stageTrace i steps) = List.range' i steps.length := by
  induction steps with
  | nil => intro i; simp [stageTrace, invokedIndices, List.range']
  | cons b rest ih =>
    intro i
    have hb : stepResult b = StepResult.passed := hall b (List.mem_cons_self b rest)
    have hrest : ∀ x ∈ rest, stepResult x = StepResult.passed := fun x hx =>
      hall x (List.mem_cons_of_mem b hx)
    simp [stageTrace, if_pos hb, invokedIndices, List.filterMap, List.range'] at ih ⊢
    exact ih hrest (i + 1)

/-- When an early stage fails, no invoked index in the trace exceeds
the failing position. -/
theorem stageTrace_invoked_le_fail (pre : List StepBeh) (b : StepBeh) (post : List StepBeh)
    (hpre : ∀ x ∈ pre, stepResult x = StepResult.passed)
    (hb : stepResult b ≠ StepResult.passed) :
    ∀ i j, Event.invoked j ∈ stageTrace i (pre ++ b :: post) → j ≤ i + pre.length := by
  induction pre with
  | nil =>
    intro i j h
    simp only [List.nil_append, stageTrace, List.mem_cons, if_neg hb] at h
    rcases h with h | h | h | h
    · cases h; simp
    · cases h
    · cases h
    · cases h
  | cons p pre' ih =>
    intro i j h
    have hp : stepResult p = StepResult.passed := hpre p (List.mem_cons_self p pre')
    have hpre' : ∀ x ∈ pre', stepResult x = StepResult.passed := fun x hx =>
      hpre x (List.mem_cons_of_mem p hx)
    simp only [List.cons_append, stageTrace, List.mem_cons, if_pos hp] at h
    rcases h with h | h | h | h
    · cases h; simp
    · cases h
    · cases h
    · have := ih hpre' (i + 1) j h
      simp only [List.length_cons]
      omega

/-- C1: if the verification function of the step at position `k` (here:
`pre.length`) returns an error or does not deliver a result within its
timeout, `Runner::run` returns `false` and the verification functions
of all steps after position `k` are never invoked. -/
theorem runner_halts_on_first_failure (pre : List StepBeh) (b : StepBeh)
    (post : List StepBeh)
    (hpre : ∀ x ∈ pre, stepResult x = StepResult.passed)
    (hb : stepResult b ≠ StepResult.passed) :
    (Runner.run (pre ++ b :: post)).1 = false ∧
    ∀ i, pre.length < i → Event.invoked i ∉ (Runner.run (pre ++ b :: post)).2 := by
  constructor
  · rw [Runner.run, runFrom_verdict]
    have hbf : stepPassed b = false := by
      cases hpb : stepPassed b
      · rfl
      · exact absurd ((stepPassed_iff b).mp hpb) hb
    simp [List.all_append, List.all_cons, hbf]
  · intro i hi hmem
    rw [Runner.run, runFrom_trace] at hmem
    have := stageTrace_invoked_le_fail pre b post hpre hb 0 i hmem
    omega

theorem runner_halts_on_first_failure_witness :
    (Runner.run [StepBeh.finishes (Except.ok ()), StepBeh.overruns,
      StepBeh.finishes (Except.ok ())]).1 = false ∧
    Event.invoked 2 ∉ (Runner.run [StepBeh.finishes (Except.ok ()), StepBeh.overruns,
      StepBeh.finishes (Except.ok ())]).2 := by
  have h := runner_halts_on_first_failure [StepBeh.finishes (Except.ok ())]
    StepBeh.overruns [StepBeh.finishes (Except.ok ())] (by decide) (by decide)
  exact ⟨h.1, h.2 2 (by decide)⟩

/-- C2: if every step's verification function returns success within
its timeout, `Runner::run` invokes each step's function exactly once,
in the given order (the invoked indices of the trace are exactly
`0, 1, ..., n-1`), and returns `true`. -/
theorem runner_all_pass_runs_in_order (steps : List StepBeh)
    (hall : ∀ b ∈ steps, stepResult b = StepResult.passed) :
    (Runner.run steps).1 = true ∧
    invokedIndices (Runner.run steps).2 = List.range steps.length := by
  constructor
  · rw [Runner.run, runFrom_verdict]
    simp only [List.all_eq_true]
    intro b hb
    exact (stepPassed_iff b).mpr (hall b hb)
  · rw [Runner.run, runFrom_trace, stageTrace_invokedIndices_all_pass steps hall 0,
      List.range_eq_range']

theorem runner_all_pass_runs_in_order_witness :
    (Runner.run [StepBeh.finishes (Except.ok ()), StepBeh.finishes (Except.ok ())]).1 = true ∧
    invokedIndices (Runner.run [StepBeh.finishes (Except.ok ()),
      StepBeh.finishes (Except.ok ())]).2 = List.range 2 :=
  runner_all_pass_runs_in_order
    [StepBeh.finishes (Except.ok ()), StepBeh.finishes (Except.ok ())] (by decide)

/-- C3: `run_teardown_funcs` invokes each registered teardown action
exactly once in reverse-registration (LIFO) order and leaves the stack
empty; and in every run, each started stage's teardown runs exactly
once, directly after that stage's outcome and before any later stage's
verification function is invoked. -/
theorem teardown_lifo_and_unconditional {α : Type} (fs : List α) (steps : List StepBeh) :
    run_teardown_funcs fs = (fs.reverse, []) ∧
    ∀ i, Event.invoked i ∈ (Runner.run steps).2 →
      countEvent (Event.teardown i) (Runner.run steps).2 = 1 ∧
      ∃ l r res,
        (Runner.run steps).2 =
          l ++ Event.invoked i :: Event.outcome i res :: Event.teardown i :: r ∧
        ∀ k, i < k → Event.invoked k ∉ l := by
  refine ⟨run_teardown_funcs_eq fs, ?_⟩
  intro i hmem
  rw [Runner.run, runFrom_trace] at hmem ⊢
  constructor
  · rw [stageTrace_teardown_count steps 0 i, if_pos hmem]
  · exact stageTrace_block steps 0 i hmem

theorem teardown_lifo_and_unconditional_witness :
    run_teardown_funcs [0, 1, 2] = ([2, 1, 0], []) ∧
    countEvent (Event.teardown 0) (Runner.run [StepBeh.overruns]).2 = 1 := by
  have h := teardown_lifo_and_unconditional [0, 1, 2] [StepBeh.overruns]
  exact ⟨h.1, (h.2 0 (by decide)).1⟩

/-! Lemmas about the process model. -/

theorem getChild_setChild (w : World) (pid : Nat) (c : Child)
    (h : pid < w.children.length) : getChild (setChild w pid c) pid = c := by
  simp [getChild, setChild, List.getD_eq_getElem?_getD, List.getElem?_set_eq_of_lt c h]

/-- C4: starting an `Executable` whose managed process is live fails
with `ProcessAlreadyRunning`, spawns no second OS process (the world,
in particular its child list, is unchanged) and leaves the executable's
state (handle, buffers, receiver) unchanged. -/
theorem start_fails_when_already_running (w : World) (e : Executable) (spec : SpawnSpec)
    (h : Executable.is_running w e = true) :
    Executable.start w e spec = (w, e, .error .processAlreadyRunning) := by
  simp [Executable.start, h]

theorem start_fails_when_already_running_witness :
    Executable.start liveWorld liveExec demoSpawn =
      (liveWorld, liveExec, .error .processAlreadyRunning) :=
  start_fails_when_already_running liveWorld liveExec demoSpawn (by decide)

/-- The poll loop ends in the kill branch whenever the child shows no
exit status at any instant the loop can observe; the invariants on `t`
and `fuel` are established by `Executable.wait`'s initial fuel. -/
theorem waitLoop_times_out (w : World) (e : Executable) (pid : Nat) (startT : Nat)
    (he : e.process = some pid) (hpid : pid < w.children.length)
    (hkf : (getChild w pid).killFails = false)
    (hnoexit : ∀ s, s ≤ startT + e.timeout + 100 →
      childStatus (getChild w pid) s = none) :
    ∀ fuel t, e.timeout + 101 ≤ t + 100 * fuel → t ≤ e.timeout + 100 →
      ∃ w' e', Executable.waitLoop w e pid startT t fuel =
        (w', e', .error (.waitTimeout e.timeout)) ∧
        e'.process = none ∧ (getChild w' pid).killed = true := by
  intro fuel
  induction fuel with
  | zero => intro t h1 h2; omega
  | succ f ih =>
    intro t h1 h2
    have hst : childStatus (getChild w pid) (startT + t) = none := by
      apply hnoexit
      omega
    rw [Executable.waitLoop, hst]
    by_cases hto : e.timeout < t
    · rw [if_pos hto]
      have hw : getChild { w with now := startT + t } pid = getChild w pid := rfl
      rw [Executable.kill, he]
      simp only [hw, hkf, Bool.false_eq_true, if_false]
      refine ⟨_, _, rfl, rfl, ?_⟩
      have hlen : pid < ({ w with now := startT + t } : World).children.length := hpid
      rw [getChild_setChild _ _ _ hlen]
    · rw [if_neg hto]
      exact ih (t + 100) (by omega) (by omega)

/-- C5: if the executable holds a process that shows no exit status at
any instant the poll loop can observe before (and at the first poll
after) the configured timeout, and the OS accepts the kill signal, then
`wait` kills the process (the child is marked killed, the handle is
dropped) and returns `WaitTimeout` carrying the configured timeout. -/
theorem wait_timeout_kills_process (w : World) (e : Executable) (pid : Nat)
    (he : e.process = some pid) (hpid : pid < w.children.length)
    (hkf : (getChild w pid).killFails = false)
    (hnoexit : ∀ s, s ≤ w.now + e.timeout + 100 →
      childStatus (getChild w pid) s = none) :
    ∃ w' e', Executable.wait w e = (w', e', .error (.waitTimeout e.timeout)) ∧
      e'.process = none ∧ (getChild w' pid).killed = true := by
  rw [Executable.wait, he]
  exact waitLoop_times_out w e pid w.now he hpid hkf hnoexit
    (e.timeout / 100 + 2) 0 (by omega) (by omega)

theorem wait_timeout_kills_process_witness :
    ∃ w' e', Executable.wait liveWorld liveExec = (w', e', .error (.waitTimeout 50)) ∧
      e'.process = none ∧ (getChild w' 0).killed = true :=
  wait_timeout_kills_process liveWorld liveExec 0 rfl (by decide) rfl
    (fun s _ => rfl)

/-- C6 counterexample: an `Executable` that still holds the handle of a
process that has already exited has no live process (`is_running` is
`false`), yet `wait` does not fail with `NoProcessRunning` — it returns
the exit status.  This refutes the claim that `wait` fails with
`NoProcessRunning` on every `Executable` with no live process. -/
theorem wait_no_live_process_counterexample :
    Executable.is_running exitedWorld liveExec = false ∧
    (Executable.wait exitedWorld liveExec).2.2 = .ok ([], [], 7) := by
  exact ⟨rfl, rfl⟩

/-- C6 (amended): `write_stdin` fails with `NoProcessRunning` (writing
nothing: world and executable unchanged) whenever no live process;
`wait` fails with `NoProcessRunning` when no process handle is held; in
particular both fail this way on a freshly created `Executable`. -/
theorem no_process_errors_amended (w : World) (e : Executable) (input : List Nat)
    (p : String) :
    (Executable.is_running w e = false →
      Executable.write_stdin w e input = (w, e, .error .noProcessRunning)) ∧
    (e.process = none → Executable.wait w e = (w, e, .error .noProcessRunning)) ∧
    Executable.write_stdin w (Executable.new p) input =
      (w, Executable.new p, .error .noProcessRunning) ∧
    Executable.wait w (Executable.new p) =
      (w, Executable.new p, .error .noProcessRunning) := by
  refine ⟨?_, ?_, ?_, ?_⟩
  · intro h
    simp [Executable.write_stdin, h]
  · intro h
    simp [Executable.wait, h]
  · simp [Executable.write_stdin, Executable.is_running, Executable.new]
  · simp [Executable.wait, Executable.new]

theorem no_process_errors_amended_witness :
    Executable.write_stdin exitedWorld (Executable.new "app") [1] =
      (exitedWorld, Executable.new "app", .error .noProcessRunning) ∧
    Executable.wait exitedWorld (Executable.new "app") =
      (exitedWorld, Executable.new "app", .error .noProcessRunning) := by
  have h := no_process_errors_amended exitedWorld (Executable.new "app") [1] "app"
  exact ⟨h.1 (by decide), h.2.1 (by decide)⟩

/-- C7: `kill` is idempotent.  With no handle held it returns `Ok` and
leaves the handle cleared; a successful kill clears the handle, so an
immediately following `kill` also returns `Ok` (and changes nothing
further); a rejected kill signal surfaces as `ProcessKillFailed`. -/
theorem kill_idempotent (w : World) (e : Executable) :
    (e.process = none → Executable.kill w e = (w, e, .ok ())) ∧
    (∀ pid, e.process = some pid → (getChild w pid).killFails = false →
      ∃ w', Executable.kill w e = (w', { e with process := none }, .ok ()) ∧
        Executable.kill w' { e with process := none } =
          (w', { e with process := none }, .ok ())) ∧
    (∀ pid, e.process = some pid → (getChild w pid).killFails = true →
      Executable.kill w e = (w, e, .error (.processKillFailed "kill failed"))) := by
  refine ⟨?_, ?_, ?_⟩
  · intro h
    cases e with
    | mk p t wd pr so se rx =>
      simp only at h
      subst h
      rfl
  · intro pid h hkf
    refine ⟨setChild w pid { getChild w pid with killed := true }, ?_, ?_⟩
    · rw [Executable.kill, h]
      simp [hkf]
    · rfl
  · intro pid h hkf
    rw [Executable.kill, h]
    simp [hkf]

theorem kill_idempotent_witness :
    Executable.kill exitedWorld (Executable.new "app") =
      (exitedWorld, Executable.new "app", .ok ()) ∧
    ∃ w', Executable.kill liveWorld liveExec =
        (w', { liveExec with process := none }, .ok ()) ∧
      Executable.kill w' { liveExec with process := none } =
        (w', { liveExec with process := none }, .ok ()) := by
  have h1 := kill_idempotent exitedWorld (Executable.new "app")
  have h2 := kill_idempotent liveWorld liveExec
  exact ⟨h1.1 rfl, h2.2.1 0 rfl rfl⟩

/-- C9 counterexample: the run-level executable is created with no
process handle, and each stage's harness receives a clone of it.  A
process started through the clone is live for the clone but is NOT
observed by the run-level executable, nor by any further clone taken
from the run-level executable — refuting the claim that a process
started by one stage's code is observed as live by the run-level
`Executable` and by every other stage's harness. -/
theorem clone_start_not_shared_counterexample :
    stageStart.2.2 = .ok () ∧
    Executable.is_running stageStart.1 stageStart.2.1 = true ∧
    Executable.is_running stageStart.1 runLevelExec = false ∧
    Executable.is_running stageStart.1 (Executable.clone runLevelExec) = false := by
  exact ⟨rfl, rfl, rfl, rfl⟩

/-- C9 (amended): cloning copies the shared process handle, so a clone
taken while a handle is held refers to the same underlying OS process —
killing through the clone is observed by the original — but a clone's
`process` field is its own copy: when the original has no handle at
clone time, a process started later through the clone is not observed
by the original. -/
theorem clone_shares_live_handle_amended (w : World) (e : Executable) :
    (Executable.clone e).process = e.process ∧
    (∀ pid, e.process = some pid → pid < w.children.length →
      (getChild w pid).killFails = false →
      Executable.is_running (Executable.kill w (Executable.clone e)).1 e = false) ∧
    (e.process = none → ∀ spec,
      Executable.is_running (Executable.start w (Executable.clone e) spec).1 e = false) := by
  refine ⟨rfl, ?_, ?_⟩
  · intro pid h hpid hkf
    have hcp : (Executable.clone e).process = some pid := h
    rw [Executable.kill, hcp]
    simp only [hkf, Bool.false_eq_true, if_false]
    simp only [Executable.is_running, h]
    rw [getChild_setChild w pid _ hpid]
    simp [childStatus]
  · intro h spec
    rw [Executable.is_running, h]

theorem clone_shares_live_handle_amended_witness :
    Executable.is_running (Executable.kill liveWorld (Executable.clone liveExec)).1
      liveExec = false :=
  (clone_shares_live_handle_amended liveWorld liveExec).2.1 0 rfl (by decide) rfl

/-- If the executable passed to the poll loop has no capture receiver,
a successful `wait` necessarily returns empty stdout and stderr
buffers. -/
theorem waitLoop_rx_none_empty (w : World) (e : Executable) (pid startT : Nat)
    (hrx : e.rx = none) :
    ∀ fuel t w' e' so se code,
      Executable.waitLoop w e pid startT t fuel = (w', e', .ok (so, se, code)) →
      so = [] ∧ se = [] := by
  intro fuel
  induction fuel with
  | zero =>
    intro t w' e' so se code h
    rw [Executable.waitLoop] at h
    simp at h
  | succ f ih =>
    intro t w' e' so se code h
    rw [Executable.waitLoop] at h
    cases hst : childStatus (getChild w pid) (startT + t) with
    | some status =>
      rw [hst, hrx] at h
      simp at h
      exact ⟨h.2.2.1, h.2.2.2.1⟩
    | none =>
      rw [hst] at h
      by_cases hto : e.timeout < t
      · rw [if_pos hto] at h
        rcases hk : Executable.kill { w with now := startT + t } e with ⟨w2, e2, res⟩
        cases res with
        | error err =>
          rw [hk] at h
          simp at h
        | ok u =>
          rw [hk] at h
          simp at h
      · rw [if_neg hto] at h
        exact ih (t + 100) w' e' so se code h

/-- C10: cloning an `Executable` drops the output-capture receiver
(`rx = none` in the clone), so whenever `wait` on a clone succeeds it
returns empty stdout and stderr buffers, regardless of what the
process wrote. -/
theorem clone_wait_empty_output (w w' : World) (e e' : Executable)
    (so se : List Nat) (code : Nat)
    (h : Executable.wait w (Executable.clone e) = (w', e', .ok (so, se, code))) :
    (Executable.clone e).rx = none ∧ so = [] ∧ se = [] := by
  refine ⟨rfl, ?_⟩
  rw [Executable.wait] at h
  split at h
  · simp at h
  · next pid heq =>
    exact waitLoop_rx_none_empty w (Executable.clone e) pid w.now rfl _ 0
      w' e' so se code h

theorem clone_wait_empty_output_witness :
    (Executable.clone liveExec).rx = none ∧
    ([] : List Nat) = [] ∧ ([] : List Nat) = [] :=
  clone_wait_empty_output exitedWorld cloneWaitRes.1 liveExec cloneWaitRes.2.1
    [] [] 7 (by decide)

/-! Lemmas about `Tester::validate`. -/

theorem find_case_none_iff (d : Definition) (slug : String) :
    d.find_case slug = none ↔ ∀ dc ∈ d.cases, dc.slug ≠ slug := by
  rw [Definition.find_case, List.find?_eq_none]
  constructor
  · intro h dc hdc heq
    exact absurd (by simp [heq]) (h dc hdc)
  · intro h dc hdc
    simp [h dc hdc]

theorem find_case_some (d : Definition) (slug : String) (dc : Case)
    (h : d.find_case slug = some dc) : dc ∈ d.cases ∧ dc.slug = slug := by
  rw [Definition.find_case] at h
  refine ⟨List.mem_of_find?_eq_some h, ?_⟩
  have := List.find?_some h
  simpa using this

theorem validateCases_ok_iff (d : Definition) (cs : List ContextCase) :
    validateCases d cs = .ok () ↔
      ∀ c ∈ cs, ∃ dc ∈ d.cases, dc.slug = c.slug := by
  induction cs with
  | nil => simp [validateCases]
  | cons c rest ih =>
    cases hf : d.find_case c.slug with
    | none =>
      have hno : ∀ dc ∈ d.cases, dc.slug ≠ c.slug := (find_case_none_iff d c.slug).mp hf
      simp only [validateCases, hf]
      constructor
      · intro h
        simp at h
      · intro h
        obtain ⟨dc, hdc, heq⟩ := h c (List.mem_cons_self c rest)
        exact absurd heq (hno dc hdc)
    | some dc =>
      obtain ⟨hmem, heq⟩ := find_case_some d c.slug dc hf
      simp only [validateCases, hf]
      rw [if_neg (by simp [heq]), ih]
      constructor
      · intro h x hx
        rcases List.mem_cons.mp hx with hx | hx
        · subst hx
          exact ⟨dc, hmem, heq⟩
        · exact h x hx
      · intro h x hx
        exact h x (List.mem_cons_of_mem c hx)

theorem validateCases_error (d : Definition) (cs : List ContextCase) (msg : TErr) :
    validateCases d cs = .error msg →
      ∃ c ∈ cs, (∀ dc ∈ d.cases, dc.slug ≠ c.slug) ∧
        msg = .custom ("tester context does not have test case with slug " ++ c.slug) := by
  induction cs with
  | nil => intro h; simp [validateCases] at h
  | cons c rest ih =>
    intro h
    cases hf : d.find_case c.slug with
    | none =>
      simp only [validateCases, hf] at h
      injection h with h'
      exact ⟨c, List.mem_cons_self c rest,
        (find_case_none_iff d c.slug).mp hf, h'.symm⟩
    | some dc =>
      obtain ⟨hmem, heq⟩ := find_case_some d c.slug dc hf
      simp only [validateCases, hf] at h
      rw [if_neg (by simp [heq])] at h
      obtain ⟨c', hc', hrest⟩ := ih h
      exact ⟨c', List.mem_cons_of_mem c hc', hrest⟩

/-- C8: `Tester::validate` returns `Ok` iff every requested slug in the
context has a catalog entry with a matching slug in the definition;
when it fails, the error is the validation message naming a requested
slug that has no matching catalog entry. -/
theorem validate_ok_iff_all_slugs_found (ctx : Context) (d : Definition) :
    (Tester.validate ctx d = .ok () ↔
      ∀ c ∈ ctx.cases, ∃ dc ∈ d.cases, dc.slug = c.slug) ∧
    (∀ msg, Tester.validate ctx d = .error msg →
      ∃ c ∈ ctx.cases, (∀ dc ∈ d.cases, dc.slug ≠ c.slug) ∧
        msg = .custom ("tester context does not have test case with slug " ++ c.slug)) :=
  ⟨validateCases_ok_iff d ctx.cases, fun msg => validateCases_error d ctx.cases msg⟩

theorem validate_ok_iff_all_slugs_found_witness :
    Tester.validate demoCtx demoDef = .ok () ∧
    ∃ c ∈ badCtx.cases, (∀ dc ∈ demoDef.cases, dc.slug ≠ c.slug) ∧
      (.custom ("tester context does not have test case with slug zz") : TErr) =
        .custom ("tester context does not have test case with slug " ++ c.slug) := by
  constructor
  · exact (validate_ok_iff_all_slugs_found demoCtx demoDef).1.mpr (by decide)
  · exact (validate_ok_iff_all_slugs_found badCtx demoDef).2
      (.custom ("tester context does not have test case with slug zz")) (by decide)
